import Mathlib

/-!
Shallow embedding of the KStream stream cipher (KStream.c) and the stdout
rendering of its driver (mcrypt.c), together with theorems checking the
natural-language specification of the program against this embedding.

Bytes and the two running indices are modelled as `Fin 256`: addition on
`Fin 256` is addition modulo 256, which matches the C code's `& 0xFF`
masking (all values involved are non-negative and bounded).  The 256-entry
state array `S` is modelled as a `Vector (Fin 256) 256`, and the 8-byte
key as a function `Fin 8 → Fin 256`.
-/

open Mathlib

set_option maxRecDepth 16384

/-- Byte XOR: `in[i] ^ k` as used in `ks_translate` (KStream.c line 157).
XOR of two naturals below 256 stays below 256. -/
def bxor (a b : Fin 256) : Fin 256 :=
  ⟨Nat.xor a.val b.val, by
    have h : Nat.xor a.val b.val < 2 ^ 8 :=
      Nat.xor_lt_two_pow (Nat.lt_of_lt_of_le a.isLt (by norm_num))
        (Nat.lt_of_lt_of_le b.isLt (by norm_num))
    exact Nat.lt_of_lt_of_le h (by norm_num)⟩

/-- The generator state, `struct KStream` (KStream.c lines 25-32).
The C field `keylen` is always 8 and is folded into the fixed key type. -/
structure KStream where
  key : Fin 8 → Fin 256
  S : Vector (Fin 256) 256
  i : Fin 256
  j : Fin 256

/-- `swap_bytes` (KStream.c lines 40-45), applied as in its call sites to
two positions of the state array: read both entries, then write each into
the other position. -/
def swap_bytes (S : Vector (Fin 256) 256) (a b : Fin 256) :
    Vector (Fin 256) 256 :=
  let tmp := S.get a
  (S.set a (S.get b)).set b tmp

/-- `ks_next_byte` (KStream.c lines 64-75): advance the state one step and
return the produced keystream byte together with the new state. -/
def ks_next_byte (ks : KStream) : Fin 256 × KStream :=
  let i := ks.i + 1
  let j := ks.j + ks.S.get i
  let S := swap_bytes ks.S i j
  let idx := S.get i + S.get j
  (S.get idx, { ks with i := i, j := j, S := S })

/-- The state after one `ks_next_byte` call, discarding the produced byte. -/
def stepState (ks : KStream) : KStream :=
  (ks_next_byte ks).2

/-- One iteration of the key-scheduling loop of `ks_create`
(KStream.c lines 103-108) at loop counter `n`, acting on the pair of the
state array and the running local `j`: it sets
`j = (j + S[n] + key[n % 8]) & 0xFF` and swaps `S[n]` with `S[j]`.
Out-of-range counters (never reached by the loop) leave the pair alone. -/
def ksaStep (key : Fin 8 → Fin 256) (n : Nat)
    (p : Vector (Fin 256) 256 × Fin 256) : Vector (Fin 256) 256 × Fin 256 :=
  if h : n < 256 then
    let i : Fin 256 := ⟨n, h⟩
    let j := p.2 + p.1.get i + key ⟨n % 8, by omega⟩
    (swap_bytes p.1 i j, j)
  else
    p

/-- The key-scheduling loop of `ks_create` (KStream.c lines 103-108) after
`n` iterations, starting from the array initialized with `S[i] = i`
(lines 94-97) and the local `int j = 0` (line 103). -/
def ksaAux (key : Fin 8 → Fin 256) : Nat → Vector (Fin 256) 256 × Fin 256
  | 0 => (Vector.ofFn (fun n => n), 0)
  | n + 1 => ksaStep key n (ksaAux key n)

/-- The full key schedule: all 256 iterations of the loop. -/
def ks_ksa (key : Fin 8 → Fin 256) : Vector (Fin 256) 256 × Fin 256 :=
  ksaAux key 256

/-- The generator state built by `ks_create` (KStream.c lines 81-112) just
before the priming loop: key bytes copied verbatim (lines 86-87), the
state array produced by the key schedule, and both indices reset to 0
(lines 110-112, `ks->i = 0; ks->j = 0;`). -/
def ks_preprime (keybytes : Fin 8 → Fin 256) : KStream :=
  { key := fun n => keybytes n
    S := (ks_ksa keybytes).1
    i := 0
    j := 0 }

/-- The priming loop of `ks_create` (KStream.c lines 115-118): call
`ks_next_byte` `n` times, discarding every result. -/
def prime : Nat → KStream → KStream
  | 0, ks => ks
  | n + 1, ks => prime n (ks_next_byte ks).2

/-- `ks_create` (KStream.c lines 81-121): copy the key, run the key
schedule, reset both indices, and prime by discarding 1024 bytes. -/
def ks_create (keybytes : Fin 8 → Fin 256) : KStream :=
  prime 1024 (ks_preprime keybytes)

/-- `ks_translate` (KStream.c lines 144-159): XOR each input byte, in
order, with one fresh keystream byte.  Returns the output buffer and the
generator state after the call; `num == 0` returns immediately
(lines 147-150). -/
def ks_translate (ks : KStream) : List (Fin 256) → List (Fin 256) × KStream
  | [] => ([], ks)
  | b :: rest =>
    match ks_next_byte ks with
    | (k, ks2) =>
      match ks_translate ks2 rest with
      | (out, ks3) => (bxor b k :: out, ks3)

/-- The next `n` keystream bytes from a state, in production order. -/
def keystreamBytes (ks : KStream) : Nat → List (Fin 256)
  | 0 => []
  | n + 1 =>
    match ks_next_byte ks with
    | (k, ks2) => k :: keystreamBytes ks2 n

/-- Modelled from the C standard library: `isprint` in the default "C"
locale (used by mcrypt.c line 123) holds exactly for byte values 0x20
through 0x7E. -/
def isprint (c : Fin 256) : Bool :=
  decide (32 ≤ c.val ∧ c.val ≤ 126)

/-- A lowercase hexadecimal digit character for a nibble value, matching
`printf("%02x", ...)` output (mcrypt.c line 131). -/
def hexDigit (n : Nat) : Char :=
  if n < 10 then Char.ofNat (48 + n) else Char.ofNat (87 + n)

/-- What `write_stdout` emits for one byte (mcrypt.c lines 121-133):
a byte below 128 that `isprint` accepts is emitted as its literal
character; every other byte is emitted as two lowercase hex digits. -/
def renderByte (b : Fin 256) : List Char :=
  if b.val < 128 ∧ isprint b then [Char.ofNat b.val]
  else [hexDigit (b.val / 16), hexDigit (b.val % 16)]

/-- `write_stdout` (mcrypt.c lines 119-134): the text rendered to stdout
for a buffer, as a list of characters. -/
def write_stdout (data : List (Fin 256)) : List Char :=
  (data.map renderByte).flatten

/-- Key schedule as the specification words it (spec section 4.1):
process the indices n = 0 to 255 in order as a list, carrying a single
running index across iterations, updating
`index_j = (index_j + permutation[n] + key[n mod 8]) mod 256` and swapping
`permutation[n]` with `permutation[index_j]`.  Stated over an explicit
index list to compare with the loop translation `ksaAux`. -/
def ksaSpecFrom (key : Fin 8 → Fin 256) :
    Vector (Fin 256) 256 × Fin 256 → List Nat →
      Vector (Fin 256) 256 × Fin 256
  | p, [] => p
  | p, n :: rest =>
    let i : Fin 256 := ⟨n % 256, by omega⟩
    let j := p.2 + p.1.get i + key ⟨n % 8, by omega⟩
    ksaSpecFrom key (swap_bytes p.1 i j, j) rest

/-- The specification-side key schedule: start from the identity
permutation and running index 0, and process n = 0 to 255 in order. -/
def ksaSpec (key : Fin 8 → Fin 256) : Vector (Fin 256) 256 × Fin 256 :=
  ksaSpecFrom key (Vector.ofFn (fun n => n), 0) (List.range 256)

/-- The concrete key 00 01 02 03 04 05 06 07 from the specification's test
vector, used for counterexamples and witnesses. -/
def key01234567 : Fin 8 → Fin 256 :=
  fun n => ⟨n.val, by omega⟩

/-- A simple concrete generator state used by witnesses: identity state
array, both indices 0, and the test-vector key. -/
def ksWitness : KStream :=
  { key := key01234567
    S := Vector.ofFn (fun n => n)
    i := 0
    j := 0 }

section Lemmas

/-- Reading any position of a swapped array: position `a` now holds what
`b` held, position `b` holds what `a` held, everything else is unchanged,
which is exactly reading the original array through the transposition. -/
theorem swap_bytes_get (S : Vector (Fin 256) 256) (a b x : Fin 256) :
    (swap_bytes S a b).get x = S.get (Equiv.swap a b x) := by
  simp only [swap_bytes]
  rcases eq_or_ne x b with rfl | hxb
  · rw [Vector.get_set_same, Equiv.swap_apply_right]
  · rw [Vector.get_set_of_ne (Ne.symm hxb)]
    rcases eq_or_ne x a with rfl | hxa
    · rw [Vector.get_set_same, Equiv.swap_apply_left]
    · rw [Vector.get_set_of_ne (Ne.symm hxa),
        Equiv.swap_apply_of_ne_of_ne hxa hxb]

theorem swap_bytes_get_eq (S : Vector (Fin 256) 256) (a b : Fin 256) :
    (swap_bytes S a b).get = S.get ∘ (Equiv.swap a b) :=
  funext (swap_bytes_get S a b)

theorem swap_bytes_bij {S : Vector (Fin 256) 256}
    (h : Function.Bijective S.get) (a b : Fin 256) :
    Function.Bijective ((swap_bytes S a b).get) := by
  rw [swap_bytes_get_eq]
  exact h.comp (Equiv.swap a b).bijective

/-- XOR with the same byte twice gives back the original byte. -/
theorem bxor_bxor_cancel (b k : Fin 256) : bxor (bxor b k) k = b := by
  apply Fin.ext
  show b.val ^^^ k.val ^^^ k.val = b.val
  rw [Nat.xor_assoc, Nat.xor_self, Nat.xor_zero]

theorem stepState_i (ks : KStream) : (stepState ks).i = ks.i + 1 := rfl

theorem stepState_j (ks : KStream) :
    (stepState ks).j = ks.j + ks.S.get (ks.i + 1) := rfl

theorem stepState_key (ks : KStream) : (stepState ks).key = ks.key := rfl

theorem stepState_S (ks : KStream) :
    (stepState ks).S =
      swap_bytes ks.S (ks.i + 1) (ks.j + ks.S.get (ks.i + 1)) := rfl

theorem stepState_bij {ks : KStream} (h : Function.Bijective ks.S.get) :
    Function.Bijective ((stepState ks).S.get) := by
  rw [stepState_S]
  exact swap_bytes_bij h _ _

theorem prime_succ (n : Nat) (ks : KStream) :
    prime (n + 1) ks = prime n (stepState ks) := rfl

theorem prime_key (n : Nat) (ks : KStream) : (prime n ks).key = ks.key := by
  induction n generalizing ks with
  | zero => rfl
  | succ n ih => rw [prime_succ, ih, stepState_key]

theorem prime_i_val (n : Nat) (ks : KStream) :
    ((prime n ks).i).val = (ks.i.val + n) % 256 := by
  induction n generalizing ks with
  | zero => exact (Nat.mod_eq_of_lt ks.i.isLt).symm
  | succ n ih =>
    rw [prime_succ, ih, stepState_i]
    have h1 : (ks.i + 1).val = (ks.i.val + 1) % 256 := by
      rw [Fin.val_add]
      norm_num
    rw [h1]
    omega

theorem prime_bij {ks : KStream} (h : Function.Bijective ks.S.get)
    (n : Nat) : Function.Bijective ((prime n ks).S.get) := by
  induction n generalizing ks with
  | zero => exact h
  | succ n ih => exact ih (stepState_bij h)

theorem ks_translate_cons (ks : KStream) (b : Fin 256)
    (rest : List (Fin 256)) :
    ks_translate ks (b :: rest) =
      (bxor b (ks_next_byte ks).1 :: (ks_translate (stepState ks) rest).1,
        (ks_translate (stepState ks) rest).2) := rfl

theorem keystreamBytes_cons (ks : KStream) (n : Nat) :
    keystreamBytes ks (n + 1) =
      (ks_next_byte ks).1 :: keystreamBytes (stepState ks) n := rfl

theorem keystreamBytes_length (ks : KStream) (n : Nat) :
    (keystreamBytes ks n).length = n := by
  induction n generalizing ks with
  | zero => rfl
  | succ n ih => rw [keystreamBytes_cons, List.length_cons, ih]

/-- Main translation characterization: the output is the input zipped with
successive keystream bytes under XOR, and the final state is the state
after exactly one byte-production step per input byte. -/
theorem ks_translate_eq (l : List (Fin 256)) (ks : KStream) :
    ks_translate ks l =
      (List.zipWith bxor l (keystreamBytes ks l.length),
        prime l.length ks) := by
  induction l generalizing ks with
  | nil => rfl
  | cons b rest ih =>
    rw [ks_translate_cons, ih (stepState ks), List.length_cons,
      keystreamBytes_cons, List.zipWith_cons_cons, prime_succ]

theorem ks_translate_key (ks : KStream) (l : List (Fin 256)) :
    (ks_translate ks l).2.key = ks.key := by
  rw [ks_translate_eq]
  exact prime_key l.length ks

/-- Translating twice from the same starting state gives back the input. -/
theorem ks_translate_twice (l : List (Fin 256)) (ks : KStream) :
    (ks_translate ks (ks_translate ks l).1).1 = l := by
  induction l generalizing ks with
  | nil => rfl
  | cons b rest ih =>
    rw [ks_translate_cons, ks_translate_cons, bxor_bxor_cancel, ih]

theorem ksaAux_succ (key : Fin 8 → Fin 256) (n : Nat) :
    ksaAux key (n + 1) = ksaStep key n (ksaAux key n) := rfl

theorem ofFn_id_get (x : Fin 256) :
    (Vector.ofFn (fun n : Fin 256 => n)).get x = x :=
  Vector.get_ofFn (fun n : Fin 256 => n) x

theorem ofFn_id_bij :
    Function.Bijective ((Vector.ofFn (fun n : Fin 256 => n)).get) := by
  have h : (Vector.ofFn (fun n : Fin 256 => n)).get = id :=
    funext ofFn_id_get
  rw [h]
  exact Function.bijective_id

theorem ksaStep_bij (key : Fin 8 → Fin 256) (n : Nat)
    {p : Vector (Fin 256) 256 × Fin 256}
    (h : Function.Bijective (p.1.get)) :
    Function.Bijective ((ksaStep key n p).1.get) := by
  unfold ksaStep
  split
  · exact swap_bytes_bij h _ _
  · exact h

theorem ksaAux_bij (key : Fin 8 → Fin 256) (n : Nat) :
    Function.Bijective ((ksaAux key n).1.get) := by
  induction n with
  | zero => exact ofFn_id_bij
  | succ n ih => exact ksaStep_bij key n ih

theorem ks_create_bij (key : Fin 8 → Fin 256) :
    Function.Bijective ((ks_create key).S.get) := by
  have h : Function.Bijective ((ks_preprime key).S.get) := ksaAux_bij key 256
  exact prime_bij h 1024

theorem ksaSpecFrom_append (key : Fin 8 → Fin 256)
    (p : Vector (Fin 256) 256 × Fin 256) (l1 l2 : List Nat) :
    ksaSpecFrom key p (l1 ++ l2) =
      ksaSpecFrom key (ksaSpecFrom key p l1) l2 := by
  induction l1 generalizing p with
  | nil => rfl
  | cons n rest ih => rw [List.cons_append]; exact ih _

/-- The loop translation agrees with the specification-side key schedule
on every prefix of the index range. -/
theorem ksaAux_eq_specFrom (key : Fin 8 → Fin 256) :
    ∀ m, m ≤ 256 →
      ksaAux key m =
        ksaSpecFrom key (Vector.ofFn (fun n => n), 0) (List.range m) := by
  intro m hm
  induction m with
  | zero => rfl
  | succ m ih =>
    have hm' : m < 256 := by omega
    rw [List.range_succ, ksaSpecFrom_append, ← ih (by omega), ksaAux_succ]
    show ksaStep key m (ksaAux key m) =
      ksaSpecFrom key (ksaAux key m) [m]
    simp only [ksaStep, ksaSpecFrom, dif_pos hm', Nat.mod_eq_of_lt hm']

theorem ks_ksa_eq_ksaSpec (key : Fin 8 → Fin 256) :
    ks_ksa key = ksaSpec key :=
  ksaAux_eq_specFrom key 256 (by omega)

end Lemmas

/-- Claim C1, counterexample: the claim says the state entering the
priming pass has index_j equal to the final key-schedule value, but for
the concrete key 00 01 02 03 04 05 06 07 the key-schedule loop's final
running index is 95 while `ks_create` resets index_j to 0 (KStream.c
line 112) before priming, so the two differ. -/
theorem claim_C1_counterexample :
    (ks_preprime key01234567).j ≠ (ks_ksa key01234567).2 := by
  decide

/-- Claim C1 (amended): after the key-schedule loop completes, the
construction resets BOTH running indices to 0 (KStream.c lines 110-112),
so the generator state entering the priming pass has index_i = 0 and
index_j = 0, not the key schedule's final running value. -/
theorem claim_C1 (key : Fin 8 → Fin 256) :
    (ks_preprime key).i = 0 ∧ (ks_preprime key).j = 0 ∧
      ks_create key = prime 1024 (ks_preprime key) :=
  ⟨rfl, rfl, rfl⟩

/-- Claim C2: translating any buffer with a generator freshly created from
a key, and translating the result with a second generator freshly created
from the same key, yields the original buffer (involution). -/
theorem claim_C2 (key : Fin 8 → Fin 256) (B : List (Fin 256)) :
    (ks_translate (ks_create key)
        ((ks_translate (ks_create key) B).1)).1 = B :=
  ks_translate_twice B (ks_create key)

/-- Claim C3: for every key, the 256-entry state array is a bijection on
the byte values at every observable point: after construction (n = 0),
after any number n of byte-production calls, and after any translation
call. -/
theorem claim_C3 :
    (∀ key : Fin 8 → Fin 256, ∀ n : Nat,
        Function.Bijective ((prime n (ks_create key)).S.get)) ∧
    (∀ key : Fin 8 → Fin 256, ∀ l : List (Fin 256),
        Function.Bijective ((ks_translate (ks_create key) l).2.S.get)) := by
  constructor
  · intro key n
    exact prime_bij (ks_create_bij key) n
  · intro key l
    rw [ks_translate_eq]
    exact prime_bij (ks_create_bij key) l.length

/-- Claim C4: one byte-production call sets index_i := index_i + 1 mod 256
and index_j := index_j + S[index_i] mod 256, swaps S[index_i] with
S[index_j], returns S[(S[index_i] + S[index_j]) mod 256] (read from the
swapped array), and mutates nothing else: every other array entry and the
key are unchanged. -/
theorem claim_C4 (ks : KStream) :
    (ks_next_byte ks).2.i = ks.i + 1 ∧
    (ks_next_byte ks).2.j = ks.j + ks.S.get (ks.i + 1) ∧
    (ks_next_byte ks).2.S.get (ks.i + 1) =
      ks.S.get (ks.j + ks.S.get (ks.i + 1)) ∧
    (ks_next_byte ks).2.S.get (ks.j + ks.S.get (ks.i + 1)) =
      ks.S.get (ks.i + 1) ∧
    (∀ x : Fin 256, x ≠ ks.i + 1 → x ≠ ks.j + ks.S.get (ks.i + 1) →
      (ks_next_byte ks).2.S.get x = ks.S.get x) ∧
    (ks_next_byte ks).2.key = ks.key ∧
    (ks_next_byte ks).1 =
      (ks_next_byte ks).2.S.get
        ((ks_next_byte ks).2.S.get (ks.i + 1) +
          (ks_next_byte ks).2.S.get (ks.j + ks.S.get (ks.i + 1))) := by
  have hS : (ks_next_byte ks).2.S =
      swap_bytes ks.S (ks.i + 1) (ks.j + ks.S.get (ks.i + 1)) := rfl
  refine ⟨rfl, rfl, ?_, ?_, ?_, rfl, rfl⟩
  · rw [hS, swap_bytes_get, Equiv.swap_apply_left]
  · rw [hS, swap_bytes_get, Equiv.swap_apply_right]
  · intro x hx1 hx2
    rw [hS, swap_bytes_get, Equiv.swap_apply_of_ne_of_ne hx1 hx2]

/-- Claim C4's frame condition instantiated at a concrete state and a
concrete untouched position. -/
theorem claim_C4_witness :
    ((5 : Fin 256) ≠ ksWitness.i + 1) ∧
    ((5 : Fin 256) ≠ ksWitness.j + ksWitness.S.get (ksWitness.i + 1)) ∧
    (ks_next_byte ksWitness).2.S.get 5 = ksWitness.S.get 5 :=
  ⟨by decide, by decide,
    (claim_C4 ksWitness).2.2.2.2.1 5 (by decide) (by decide)⟩

/-- Claim C5: generator construction initializes the state array to the
identity (S[n] = n in order) with running index 0, runs the key schedule
for n = 0 to 255 with the single running index updated as
j = (j + S[n] + key[n mod 8]) mod 256 followed by a swap of S[n] and S[j]
(equivalently, the specification-side fold over the list 0..255 in
order), and then calls the byte-production step exactly 1024 times
discarding every result. -/
theorem claim_C5 (key : Fin 8 → Fin 256) :
    ((ksaAux key 0).1.get = fun n => n) ∧
    (ksaAux key 0).2 = 0 ∧
    (∀ n : Nat, ∀ h : n < 256,
      ksaAux key (n + 1) =
        (swap_bytes (ksaAux key n).1 ⟨n, h⟩
            ((ksaAux key n).2 + (ksaAux key n).1.get ⟨n, h⟩ +
              key ⟨n % 8, by omega⟩),
          (ksaAux key n).2 + (ksaAux key n).1.get ⟨n, h⟩ +
            key ⟨n % 8, by omega⟩)) ∧
    ks_ksa key = ksaSpec key ∧
    ks_create key = prime 1024 (ks_preprime key) := by
  refine ⟨funext ofFn_id_get, rfl, ?_, ks_ksa_eq_ksaSpec key, rfl⟩
  intro n h
  rw [ksaAux_succ]
  unfold ksaStep
  rw [dif_pos h]

/-- Claim C5's key-schedule recurrence instantiated at loop counter 3 for
the concrete test-vector key. -/
theorem claim_C5_witness :
    (3 : Nat) < 256 ∧
    ksaAux key01234567 (3 + 1) =
      (swap_bytes (ksaAux key01234567 3).1 ⟨3, by omega⟩
          ((ksaAux key01234567 3).2 +
            (ksaAux key01234567 3).1.get ⟨3, by omega⟩ +
            key01234567 ⟨3 % 8, by omega⟩),
        (ksaAux key01234567 3).2 +
          (ksaAux key01234567 3).1.get ⟨3, by omega⟩ +
          key01234567 ⟨3 % 8, by omega⟩) :=
  ⟨by decide, (claim_C5 key01234567).2.2.1 3 (by decide)⟩

/-- Claim C6, counterexample: byte 0x00 has numeric value below 128, yet
`write_stdout` does not emit it as its literal character (it emits the
two hex digits "00", because 0x00 fails the additional `isprint` test on
mcrypt.c line 123). -/
theorem claim_C6_counterexample :
    (0 : Fin 256).val < 128 ∧
    write_stdout [(0 : Fin 256)] ≠ [Char.ofNat (0 : Fin 256).val] := by
  constructor
  · decide
  · decide

/-- Claim C6 (amended): a byte below 128 is emitted as its literal
character only when it is printable (`isprint`); every other byte —
value at least 128, or below 128 but not printable — is emitted as two
lowercase hexadecimal digits of its value.  The claim's concrete
examples hold: 0x41 renders as "A", 0xFF as "ff", and the buffer
[0x41, 0xFF] as "Aff". -/
theorem claim_C6 :
    (∀ b : Fin 256, b.val < 128 → isprint b = true →
        renderByte b = [Char.ofNat b.val]) ∧
    (∀ b : Fin 256, 128 ≤ b.val ∨ isprint b = false →
        renderByte b = [hexDigit (b.val / 16), hexDigit (b.val % 16)]) ∧
    write_stdout [(0x41 : Fin 256)] = ['A'] ∧
    write_stdout [(0xFF : Fin 256)] = ['f', 'f'] ∧
    write_stdout [(0x41 : Fin 256), (0xFF : Fin 256)] = ['A', 'f', 'f'] := by
  refine ⟨?_, ?_, by decide, by decide, by decide⟩
  · intro b h1 h2
    unfold renderByte
    rw [if_pos ⟨h1, by simpa using h2⟩]
  · intro b h
    unfold renderByte
    rw [if_neg]
    rintro ⟨h1, h2⟩
    rcases h with h | h
    · omega
    · rw [h] at h2
      exact Bool.false_ne_true h2

/-- Claim C6's amended rendering rules instantiated at the bytes 0x41
(printable, literal) and 0xFF (hex-encoded). -/
theorem claim_C6_witness :
    ((0x41 : Fin 256).val < 128 ∧ isprint (0x41 : Fin 256) = true ∧
      renderByte (0x41 : Fin 256) = [Char.ofNat (0x41 : Fin 256).val]) ∧
    (128 ≤ (0xFF : Fin 256).val ∧
      renderByte (0xFF : Fin 256) =
        [hexDigit ((0xFF : Fin 256).val / 16),
          hexDigit ((0xFF : Fin 256).val % 16)]) :=
  ⟨⟨by decide, by decide, claim_C6.1 0x41 (by decide) (by decide)⟩,
    ⟨by decide, claim_C6.2.1 0xFF (Or.inl (by decide))⟩⟩

/-- Claim C7: translating an empty buffer returns an empty output and the
generator state completely unchanged. -/
theorem claim_C7 (ks : KStream) : ks_translate ks [] = ([], ks) :=
  rfl

/-- Claim C8: translation of an N-byte buffer produces exactly N bytes,
each equal to the corresponding input byte XORed with the next keystream
byte, with exactly one byte-production call per input byte in input
order (the final state is `prime N`, i.e. N successive `ks_next_byte`
steps). -/
theorem claim_C8 (ks : KStream) (l : List (Fin 256)) :
    ks_translate ks l =
      (List.zipWith bxor l (keystreamBytes ks l.length),
        prime l.length ks) ∧
    (ks_translate ks l).1.length = l.length ∧
    (keystreamBytes ks l.length).length = l.length := by
  refine ⟨ks_translate_eq l ks, ?_, keystreamBytes_length ks l.length⟩
  rw [ks_translate_eq]
  simp [keystreamBytes_length]

/-- Claim C9: the 8 key bytes are stored verbatim in order, are never
mutated by byte production, priming or translation, and the keystream is
a function of exactly those 8 bytes. -/
theorem claim_C9 :
    (∀ keybytes : Fin 8 → Fin 256, ∀ n : Fin 8,
        (ks_create keybytes).key n = keybytes n) ∧
    (∀ ks : KStream, (ks_next_byte ks).2.key = ks.key) ∧
    (∀ ks : KStream, ∀ n : Nat, (prime n ks).key = ks.key) ∧
    (∀ ks : KStream, ∀ l : List (Fin 256),
        (ks_translate ks l).2.key = ks.key) ∧
    (∀ k1 k2 : Fin 8 → Fin 256, (∀ n, k1 n = k2 n) →
        ∀ m : Nat,
          keystreamBytes (ks_create k1) m =
            keystreamBytes (ks_create k2) m) := by
  refine ⟨?_, fun ks => rfl, fun ks n => prime_key n ks,
    fun ks l => ks_translate_key ks l, ?_⟩
  · intro keybytes n
    have h : (ks_create keybytes).key = (ks_preprime keybytes).key :=
      prime_key 1024 (ks_preprime keybytes)
    rw [h]
    rfl
  · intro k1 k2 h m
    have hk : k1 = k2 := funext h
    rw [hk]

/-- Claim C9's key-dependence conjunct instantiated at the concrete
test-vector key. -/
theorem claim_C9_witness :
    keystreamBytes (ks_create key01234567) 1 =
      keystreamBytes (ks_create key01234567) 1 :=
  claim_C9.2.2.2.2 key01234567 key01234567 (fun _ => rfl) 1

/-- Claim C10: immediately after construction index_i is 0, because each
of the 1024 priming steps advances index_i by exactly 1 modulo 256
starting from 0, and 1024 is a multiple of 256. -/
theorem claim_C10 :
    (∀ key : Fin 8 → Fin 256, (ks_create key).i = 0) ∧
    (∀ ks : KStream, ∀ n : Nat,
        ((prime n ks).i).val = (ks.i.val + n) % 256) := by
  constructor
  · intro key
    apply Fin.ext
    show ((prime 1024 (ks_preprime key)).i).val = (0 : Fin 256).val
    rw [prime_i_val 1024 (ks_preprime key)]
    show ((0 : Fin 256).val + 1024) % 256 = (0 : Fin 256).val
    decide
  · intro ks n
    exact prime_i_val n ks
